import Mathlib

/-!
Shallow embedding of the real-time duplex audio session manager of this
repository (`src/services/liveSessionService.ts`, class `LiveSessionService`).

Modelling conventions:
- Float samples are modelled as rationals.  Every quantity the codec computes
  (clamped sample, `s * 0x7FFF`, `int16 / 32768.0`) is exactly representable
  in the JavaScript double type for float32 inputs, so rational arithmetic is
  an exact model of the source's arithmetic on this path.
- JavaScript's `Int16Array` element store truncates toward zero and wraps
  modulo 2^16 (`jsTrunc`, `toInt16`); the byte view is little-endian
  (`lowByte`, `highByte`).
- The platform primitives `btoa`/`atob` used by `pcmToB64`/`b64ToPcm` are
  modelled bit-faithfully on byte lists / character lists (`btoaBytes`,
  `atobChars`); `new Int16Array(buffer)` with an odd byte length throws a
  RangeError, modelled by `pairUp` returning `none`.
- Stateful code is explicit state passing over `SvcState`, whose fields mirror
  the private fields of `LiveSessionService`; externally visible actions
  (resource acquisition/release, the `onError` callback, connect attempts,
  backoff waits) are recorded as event lists.
- The remote connect call is an oracle `ℕ → Except ℕ Unit` giving the outcome
  of the k-th attempt; timer durations are carried symbolically in events.
-/

namespace LiveSession

/-- Clamp a sample to `[-1, 1]`, as in `pcmToB64`
(`Math.max(-1, Math.min(1, float32Array[i]))`, line 221). -/
def clamp1 (x : ℚ) : ℚ := max (-1) (min 1 x)

/-- JavaScript number-to-int16 truncation toward zero, as applied by an
`Int16Array` element store (line 222). -/
def jsTrunc (q : ℚ) : ℤ := if q < 0 then ⌈q⌉ else ⌊q⌋

/-- Quantize one float sample to a 16-bit integer:
`s < 0 ? s * 0x8000 : s * 0x7FFF` (line 222), truncated by the store. -/
def quantSample (x : ℚ) : ℤ :=
  if clamp1 x < 0 then jsTrunc (clamp1 x * 32768) else jsTrunc (clamp1 x * 32767)

/-- `Int16Array` storage semantics: wrap an integer into `[-32768, 32767]`. -/
def toInt16 (z : ℤ) : ℤ := (z + 32768) % 65536 - 32768

/-- Low byte of the little-endian 16-bit representation (line 225,
`new Uint8Array(int16Array.buffer)`). -/
def lowByte (v : ℤ) : ℕ := (v % 65536).toNat % 256

/-- High byte of the little-endian 16-bit representation. -/
def highByte (v : ℤ) : ℕ := (v % 65536).toNat / 256

/-- The byte serialization built by `pcmToB64` before base64 encoding
(lines 218-229): each sample quantized then stored little-endian. -/
def pcmBytes (s : List ℚ) : List ℕ :=
  (s.map fun x => [lowByte (toInt16 (quantSample x)), highByte (toInt16 (quantSample x))]).flatten

/-- The base64 alphabet character for a sextet (platform `btoa`). -/
def b64Char (n : ℕ) : Char :=
  "ABCDEFGHIJKLMNOPQRSTUVWXYZabcdefghijklmnopqrstuvwxyz0123456789+/".toList.getD n '?'

/-- The sextet value of a base64 alphabet character (platform `atob`). -/
def b64Val (c : Char) : ℕ :=
  ("ABCDEFGHIJKLMNOPQRSTUVWXYZabcdefghijklmnopqrstuvwxyz0123456789+/".toList.findIdx?
    fun d => d == c).getD 64

/-- Platform `btoa` on a list of bytes: groups of three bytes become four
base64 characters, a final group of one or two bytes is padded with `=`. -/
def btoaBytes : List ℕ → List Char
  | [] => []
  | [a] => [b64Char (a / 4), b64Char (a % 4 * 16), '=', '=']
  | [a, b] => [b64Char (a / 4), b64Char (a % 4 * 16 + b / 16), b64Char (b % 16 * 4), '=']
  | a :: b :: c :: rest =>
      b64Char (a / 4) :: b64Char (a % 4 * 16 + b / 16) :: b64Char (b % 16 * 4 + c / 64)
        :: b64Char (c % 64) :: btoaBytes rest

/-- Platform `atob` on a list of base64 characters: each group of four
characters yields three bytes, with `=` padding ending the input. -/
def atobChars : List Char → List ℕ
  | c1 :: c2 :: c3 :: c4 :: rest =>
      if c3 = '=' then [b64Val c1 * 4 + b64Val c2 / 16]
      else if c4 = '=' then
        [b64Val c1 * 4 + b64Val c2 / 16, b64Val c2 % 16 * 16 + b64Val c3 / 4]
      else
        (b64Val c1 * 4 + b64Val c2 / 16) :: (b64Val c2 % 16 * 16 + b64Val c3 / 4)
          :: (b64Val c3 % 4 * 64 + b64Val c4) :: atobChars rest
  | _ => []

/-- `pcmToB64` (lines 218-231): quantize, serialize little-endian, base64. -/
def pcmToB64 (s : List ℚ) : List Char := btoaBytes (pcmBytes s)

/-- Reconstruct a signed 16-bit integer from its little-endian bytes
(the `Int16Array` view taken in `b64ToPcm`, line 240). -/
def int16OfBytes (lo hi : ℕ) : ℤ :=
  if lo + 256 * hi < 32768 then (lo + 256 * hi : ℤ) else (lo + 256 * hi : ℤ) - 65536

/-- Pair up a byte list two at a time.  `new Int16Array(bytes.buffer)`
(line 240) throws a RangeError when the byte length is odd, modelled by
`none`. -/
def pairUp : List ℕ → Option (List (ℕ × ℕ))
  | [] => some []
  | lo :: hi :: rest => (pairUp rest).map fun l => (lo, hi) :: l
  | [_] => none

/-- The byte-level part of `b64ToPcm` (lines 236-245): view the bytes as
little-endian int16 values and divide by 32768. -/
def pcmOfBytes (bytes : List ℕ) : Except Unit (List ℚ) :=
  match pairUp bytes with
  | none => .error ()
  | some ps => .ok (ps.map fun p => ((int16OfBytes p.1 p.2 : ℚ) / 32768))

/-- `b64ToPcm` (lines 233-246): base64 decode, then int16 view, then scale. -/
def b64ToPcm (chars : List Char) : Except Unit (List ℚ) := pcmOfBytes (atobChars chars)

/-- The scheduling decision of `playAudioChunk` (lines 176-180):
`if (nextStartTime < currentTime) nextStartTime = currentTime` then start
at `nextStartTime`. -/
def schedStart (now next : ℚ) : ℚ := if next < now then now else next

/-- Fold the scheduling step of `playAudioChunk` over a sequence of chunks,
each given as (device time at enqueue, decoded sample count); returns the
scheduled start times.  The cursor advances by `length / 24000` seconds
(lines 168, 181, `OUTPUT_SAMPLE_RATE = 24000`). -/
def scheduleChunks : List (ℚ × ℕ) → ℚ → List ℚ
  | [], _ => []
  | (now, len) :: rest, next =>
      schedStart now next :: scheduleChunks rest (schedStart now next + (len : ℚ) / 24000)

/-- The private mutable fields of `LiveSessionService` (lines 10-17); `true`
means the corresponding reference is non-null. -/
structure SvcState where
  inputContext : Bool
  outputContext : Bool
  inputSource : Bool
  processor : Bool
  currentStream : Bool
  nextStartTime : ℚ
  isConnected : Bool
deriving DecidableEq

/-- The state right after construction (lines 10-17): every reference null,
`nextStartTime = 0`, not connected. -/
def idleState : SvcState := ⟨false, false, false, false, false, 0, false⟩

/-- Externally visible actions of the orchestrator lifecycle. -/
inductive Ev
  | acquireInputCtx
  | acquireOutputCtx
  | acquireMic
  | opened
  | errCb
  | releaseInput
  | releaseProcessor
  | releaseMic
  | closeInputCtx
  | closeOutputCtx
deriving DecidableEq

/-- Whether an event releases or closes a previously acquired resource. -/
def isRelease : Ev → Bool
  | .releaseInput => true
  | .releaseProcessor => true
  | .releaseMic => true
  | .closeInputCtx => true
  | .closeOutputCtx => true
  | _ => false

/-- `stopSession` (lines 184-214): disconnect and null the source and
processor, stop the tracks, close both contexts, reset the cursor; each
release is guarded by a null check. -/
def stopSession (st : SvcState) : SvcState × List Ev :=
  (idleState,
    (if st.inputSource then [Ev.releaseInput] else [])
      ++ (if st.processor then [Ev.releaseProcessor] else [])
      ++ (if st.currentStream then [Ev.releaseMic] else [])
      ++ (if st.inputContext then [Ev.closeInputCtx] else [])
      ++ (if st.outputContext then [Ev.closeOutputCtx] else []))

deriving instance DecidableEq for Except

/-- Outcome of `connectWithRetry`: the propagated result, the total number of
connect attempts made, and the backoff delays waited between attempts. -/
structure RetryResult where
  result : Except ℕ Unit
  attempts : ℕ
  waits : List ℕ
deriving DecidableEq

/-- `connectWithRetry` (lines 67-123): try the k-th connect attempt; on
failure with retries left, wait `delay` ms and recurse with `retries - 1`
and `delay * 2`; with no retries left the error is rethrown. -/
def connectWithRetry (oracle : ℕ → Except ℕ Unit) : ℕ → ℕ → ℕ → RetryResult
  | k, 0, _ => ⟨oracle k, 1, []⟩
  | k, r + 1, delay =>
      match oracle k with
      | .ok u => ⟨.ok u, 1, []⟩
      | .error _ =>
          let rest := connectWithRetry oracle (k + 1) r (delay * 2)
          ⟨rest.result, rest.attempts + 1, delay :: rest.waits⟩

/-- Timeline events of the retry loop. -/
inductive REv
  | attempt (k : ℕ)
  | wait (ms : ℕ)
deriving DecidableEq

/-- The ordered timeline of `connectWithRetry` (lines 67-123): attempts and
the backoff waits between them.  The recursion reads no cancellation state:
none of the fields `stopSession` mutates (lines 184-214) is consulted
between the `setTimeout` wait and the recursive call (lines 117-118), so
this timeline is independent of any interleaved `stopSession` call. -/
def retryEvents (oracle : ℕ → Except ℕ Unit) : ℕ → ℕ → ℕ → List REv
  | k, 0, _ => [.attempt k]
  | k, r + 1, delay =>
      match oracle k with
      | .ok _ => [.attempt k]
      | .error _ => .attempt k :: .wait delay :: retryEvents oracle (k + 1) r (delay * 2)

/-- The doubling backoff schedule starting at `d` with `r` retries left. -/
def delaysFrom : ℕ → ℕ → List ℕ
  | _, 0 => []
  | d, r + 1 => d :: delaysFrom (d * 2) r

/-- `playAudioChunk` (lines 159-182) after base64 decoding, taking the raw
byte payload: return immediately when the output context is null (line 160);
the odd-length typed-array view throws before any state is mutated (third
component `some ()` records the escaped exception); otherwise schedule the
decoded buffer and advance the cursor.  The second component is the
scheduled start time, if any. -/
def playAudioChunkBytes (st : SvcState) (now : ℚ) (bytes : List ℕ) :
    SvcState × Option ℚ × Option Unit :=
  if st.outputContext = false then (st, none, none)
  else
    match pcmOfBytes bytes with
    | .error _ => (st, none, some ())
    | .ok samples =>
        ({ st with nextStartTime :=
            schedStart now st.nextStartTime + (samples.length : ℚ) / 24000 },
         some (schedStart now st.nextStartTime), none)

/-- `startSession` (lines 23-65): no-op when already connected (line 28);
otherwise acquire both audio contexts, then the microphone (`micOk` is the
permission outcome), then connect with retry.  On success `onopen` sets
`isConnected` and `startAudioInput` creates the source and processor nodes
(lines 78-81, 125-157).  On microphone denial or retry exhaustion the catch
block (lines 60-64) invokes `onError` and then calls `stopSession`. -/
def startSession (st : SvcState) (micOk : Bool) (oracle : ℕ → Except ℕ Unit) :
    SvcState × List Ev :=
  if st.isConnected then (st, [])
  else
    let st1 := { st with inputContext := true, outputContext := true }
    if micOk then
      let st2 := { st1 with currentStream := true }
      match (connectWithRetry oracle 0 3 1000).result with
      | .ok _ =>
          ({ st2 with isConnected := true, inputSource := true, processor := true },
           [Ev.acquireInputCtx, Ev.acquireOutputCtx, Ev.acquireMic, Ev.opened])
      | .error _ =>
          ((stopSession st2).1,
           [Ev.acquireInputCtx, Ev.acquireOutputCtx, Ev.acquireMic, Ev.errCb]
             ++ (stopSession st2).2)
    else
      ((stopSession st1).1,
       [Ev.acquireInputCtx, Ev.acquireOutputCtx, Ev.errCb] ++ (stopSession st1).2)

/-- Maximum of a list of naturals. -/
def natMax (l : List ℕ) : ℕ := l.foldr max 0

/-- Times, up to `t`, at which the activity callback was invoked with `true`:
`onAudioActivity(true)` runs at each chunk arrival (line 87). -/
def arrivalsUpTo (arrivals : List ℕ) (t : ℕ) : List ℕ :=
  arrivals.filter fun a => decide (a ≤ t)

/-- Times, up to `t`, at which the activity callback was invoked with `false`:
each chunk schedules its own `setTimeout(() => onAudioActivity(false), 500)`
(line 90) and no timer is ever cleared. -/
def decaysUpTo (arrivals : List ℕ) (t : ℕ) : List ℕ :=
  (arrivals.map fun a => a + 500).filter fun b => decide (b ≤ t)

/-- The activity state at time `t` given the chunk arrival times: the value
passed by the chronologically latest callback invocation at or before `t`
(`true` wins a tie, matching the `true` call preceding the timer's `false`
at chunk handling time); `false` before any chunk. -/
def activityAt (arrivals : List ℕ) (t : ℕ) : Bool :=
  decide (arrivalsUpTo arrivals t ≠ []) &&
    decide (natMax (decaysUpTo arrivals t) ≤ natMax (arrivalsUpTo arrivals t))

/-! ## Theorems -/

/-- Claim C8: calling `startSession` while a session is already active is a
no-op: the guard `if (this.isConnected) return` (line 28) opens no second
transport connection, acquires nothing, and leaves all state unchanged. -/
theorem start_session_noop_when_connected (st : SvcState) (micOk : Bool)
    (oracle : ℕ → Except ℕ Unit) (h : st.isConnected = true) :
    startSession st micOk oracle = (st, []) := by
  simp [startSession, h]

/-- Witness for C8 at a fully active concrete state. -/
theorem start_session_noop_when_connected_witness :
    startSession ⟨true, true, true, true, true, 0, true⟩ true (fun _ => .ok ())
      = (⟨true, true, true, true, true, 0, true⟩, []) :=
  start_session_noop_when_connected _ _ _ rfl

/-- Claim C9: `stopSession` called with no active session (the freshly
constructed idle state) changes nothing and emits no release action, and a
second `stopSession` right after a first one is always a no-op; the function
is total (every release is wrapped in a null check or try/catch,
lines 184-214), so it never throws. -/
theorem stop_session_idempotent :
    stopSession idleState = (idleState, [])
    ∧ ∀ st : SvcState, (stopSession st).1 = idleState
        ∧ stopSession (stopSession st).1 = ((stopSession st).1, []) := by
  exact ⟨rfl, fun st => ⟨rfl, rfl⟩⟩

/-- Claim C10: a chunk arriving after `stopSession` completed (or before any
session started) hits the `if (!this.outputContext) return` guard
(line 160): nothing is scheduled, no exception is raised, and the state is
untouched — the late chunk is silently discarded. -/
theorem late_chunk_discarded (st : SvcState) (now : ℚ) (bytes : List ℕ) :
    playAudioChunkBytes (stopSession st).1 now bytes = ((stopSession st).1, none, none)
    ∧ playAudioChunkBytes idleState now bytes = (idleState, none, none) := by
  exact ⟨rfl, rfl⟩

theorem connectWithRetry_attempts_pos (oracle : ℕ → Except ℕ Unit) :
    ∀ (r k delay : ℕ), 1 ≤ (connectWithRetry oracle k r delay).attempts := by
  intro r
  induction r with
  | zero => intro k delay; simp [connectWithRetry]
  | succ n ih =>
    intro k delay
    cases h : oracle k with
    | ok u => simp [connectWithRetry, h]
    | error e => simp [connectWithRetry, h]

theorem connectWithRetry_attempts_le (oracle : ℕ → Except ℕ Unit) :
    ∀ (r k delay : ℕ), (connectWithRetry oracle k r delay).attempts ≤ r + 1 := by
  intro r
  induction r with
  | zero => intro k delay; simp [connectWithRetry]
  | succ n ih =>
    intro k delay
    cases h : oracle k with
    | ok u => simp [connectWithRetry, h]
    | error e =>
      simp only [connectWithRetry, h]
      have := ih (k + 1) (delay * 2)
      omega

theorem connectWithRetry_waits_eq (oracle : ℕ → Except ℕ Unit) :
    ∀ (r k delay : ℕ), (connectWithRetry oracle k r delay).waits
      = (delaysFrom delay r).take ((connectWithRetry oracle k r delay).attempts - 1) := by
  intro r
  induction r with
  | zero => intro k delay; simp [connectWithRetry]
  | succ n ih =>
    intro k delay
    cases h : oracle k with
    | ok u => simp [connectWithRetry, h]
    | error e =>
      simp only [connectWithRetry, h, delaysFrom]
      have hpos := connectWithRetry_attempts_pos oracle n (k + 1) (delay * 2)
      obtain ⟨m, hm⟩ : ∃ m, (connectWithRetry oracle (k + 1) n (delay * 2)).attempts = m + 1 :=
        ⟨_, (Nat.succ_pred_eq_of_pos hpos).symm⟩
      simp [hm, List.take_succ_cons, ih (k + 1) (delay * 2)]

theorem connectWithRetry_all_fail (oracle : ℕ → Except ℕ Unit) (e : ℕ → ℕ)
    (hfail : ∀ j, oracle j = .error (e j)) :
    ∀ (r k delay : ℕ), connectWithRetry oracle k r delay
      = ⟨.error (e (k + r)), r + 1, delaysFrom delay r⟩ := by
  intro r
  induction r with
  | zero => intro k delay; simp [connectWithRetry, hfail k, delaysFrom]
  | succ n ih =>
    intro k delay
    simp only [connectWithRetry, hfail k, delaysFrom, ih (k + 1) (delay * 2)]
    have : k + 1 + n = k + (n + 1) := by omega
    simp [this]

/-- Claim C3: `connectWithRetry` (lines 67-123) makes at most 4 attempts in
total, waiting 1000ms, 2000ms, 4000ms between successive attempts (a prefix
of that schedule when it stops early); when the connect fails exactly twice
and then succeeds, it resolves successfully after exactly 3 attempts having
waited 1000ms then 2000ms; when every attempt fails, the last attempt's
error is propagated and exactly 4 attempts are made, so no further attempts
occur. -/
theorem connect_retry_spec (oracle : ℕ → Except ℕ Unit) (e : ℕ → ℕ) :
    (connectWithRetry oracle 0 3 1000).attempts ≤ 4
    ∧ (connectWithRetry oracle 0 3 1000).waits
        = [1000, 2000, 4000].take ((connectWithRetry oracle 0 3 1000).attempts - 1)
    ∧ (oracle 0 = .error (e 0) → oracle 1 = .error (e 1) → oracle 2 = .ok () →
        connectWithRetry oracle 0 3 1000 = ⟨.ok (), 3, [1000, 2000]⟩)
    ∧ ((∀ j, oracle j = .error (e j)) →
        connectWithRetry oracle 0 3 1000 = ⟨.error (e 3), 4, [1000, 2000, 4000]⟩) := by
  refine ⟨connectWithRetry_attempts_le oracle 3 0 1000, ?_, ?_, ?_⟩
  · have := connectWithRetry_waits_eq oracle 3 0 1000
    simpa [delaysFrom] using this
  · intro h0 h1 h2
    simp [connectWithRetry, h0, h1, h2]
  · intro hfail
    have := connectWithRetry_all_fail oracle e hfail 3 0 1000
    simpa [delaysFrom] using this

/-- Counterexample to claim C5 as stated: the retry recursion of
`connectWithRetry` consults no cancellation state — `stopSession`
(lines 184-214) mutates only fields the loop never reads — so a connect
attempt still occurs after the first backoff wait; a `stopSession` call
landing inside that wait does not prevent any later attempt. -/
theorem stop_cancels_retries_cex :
    retryEvents (fun _ => .error 0) 0 3 1000
      = [.attempt 0, .wait 1000, .attempt 1, .wait 2000, .attempt 2, .wait 4000, .attempt 3]
    ∧ REv.attempt 1 ∈
        ((retryEvents (fun _ => .error 0) 0 3 1000).dropWhile
          fun ev => decide (ev ≠ REv.wait 1000)) := by
  exact ⟨rfl, by decide⟩

/-- Claim C5 as amended: `stopSession` does not cancel pending retries (with
every attempt failing, each backoff wait is followed by a further connect
attempt, the timeline being independent of any interleaved stop); it does
stop future scheduling: after `stopSession` completes, the output context is
null, so the playback path schedules nothing and raises nothing. -/
theorem stop_does_not_cancel_retries (oracle : ℕ → Except ℕ Unit) (e : ℕ → ℕ)
    (hfail : ∀ j, oracle j = .error (e j)) :
    retryEvents oracle 0 3 1000
      = [.attempt 0, .wait 1000, .attempt 1, .wait 2000, .attempt 2, .wait 4000, .attempt 3]
    ∧ ∀ (st : SvcState) (now : ℚ) (bytes : List ℕ),
        playAudioChunkBytes (stopSession st).1 now bytes = ((stopSession st).1, none, none) := by
  constructor
  · simp [retryEvents, hfail 0, hfail 1, hfail 2, hfail 3]
  · intro st now bytes
    rfl

/-- Witness for the amended C5 at a concretely failing connect oracle. -/
theorem stop_does_not_cancel_retries_witness :
    retryEvents (fun _ => .error 5) 0 3 1000
      = [.attempt 0, .wait 1000, .attempt 1, .wait 2000, .attempt 2, .wait 4000, .attempt 3]
    ∧ ∀ (st : SvcState) (now : ℚ) (bytes : List ℕ),
        playAudioChunkBytes (stopSession st).1 now bytes = ((stopSession st).1, none, none) :=
  stop_does_not_cancel_retries (fun _ => .error 5) (fun _ => 5) (fun _ => rfl)

/-- Counterexample to claim C4 as stated: on microphone denial the catch
block (lines 60-64) runs `onError(error)` first and `stopSession()` after
it, so the release/close actions appear strictly after the `onError`
callback in the event trace — resources are not released before `onError`
is invoked. -/
theorem rollback_before_errcb_cex :
    (startSession idleState false fun _ => .error 0).2
      = [Ev.acquireInputCtx, Ev.acquireOutputCtx, Ev.errCb, Ev.closeInputCtx, Ev.closeOutputCtx]
    ∧ (((startSession idleState false fun _ => .error 0).2.dropWhile
        fun ev => decide (ev ≠ Ev.errCb)).any isRelease) = true := by
  exact ⟨rfl, by decide⟩

theorem takeWhile_until_errCb (a b : Ev) (evs : List Ev)
    (ha : a ≠ Ev.errCb) (hb : b ≠ Ev.errCb) :
    ((a :: b :: Ev.errCb :: evs).takeWhile fun ev => decide (ev ≠ Ev.errCb)) = [a, b] := by
  simp [List.takeWhile_cons, ha, hb]

/-- Claim C4 as amended: on every fatal `startSession` failure (microphone
denial or retry exhaustion) the `onError` callback is invoked first and all
partially-acquired resources are released right after it (the catch block
calls `stopSession`), leaving the orchestrator in the clean idle state from
which a subsequent `startSession` succeeds. -/
theorem rollback_after_errcb (st : SvcState) (oracle : ℕ → Except ℕ Unit)
    (h : st.isConnected = false) :
    ((startSession st false oracle).1 = idleState
      ∧ Ev.errCb ∈ (startSession st false oracle).2
      ∧ (((startSession st false oracle).2.takeWhile fun ev => decide (ev ≠ Ev.errCb)).all
          fun ev => !(isRelease ev)) = true
      ∧ (startSession (startSession st false oracle).1 true fun _ => .ok ()).1.isConnected
          = true)
    ∧ ((startSession st true fun _ => .error 0).1 = idleState
      ∧ Ev.errCb ∈ (startSession st true fun _ => .error 0).2
      ∧ (((startSession st true fun _ => .error 0).2.takeWhile fun ev => decide (ev ≠ Ev.errCb)).all
          fun ev => !(isRelease ev)) = true
      ∧ (startSession (startSession st true fun _ => .error 0).1 true fun _ => .ok ()).1.isConnected
          = true) := by
  have hc : (connectWithRetry (fun _ => Except.error (0 : ℕ)) 0 3 1000).result
      = .error 0 := rfl
  have hden : startSession st false oracle
      = (idleState, Ev.acquireInputCtx :: Ev.acquireOutputCtx :: Ev.errCb
          :: (stopSession { st with inputContext := true, outputContext := true }).2) := by
    simp [startSession, h, stopSession]
  have hexh : startSession st true (fun _ => .error 0)
      = (idleState, Ev.acquireInputCtx :: Ev.acquireOutputCtx :: Ev.acquireMic :: Ev.errCb
          :: (stopSession
              { st with
                inputContext := true
                outputContext := true
                currentStream := true }).2) := by
    simp [startSession, h, hc, stopSession]
  refine ⟨⟨?_, ?_, ?_, ?_⟩, ?_, ?_, ?_, ?_⟩
  · rw [hden]
  · rw [hden]; exact .tail _ (.tail _ (.head _))
  · rw [hden]
    simp [List.takeWhile_cons, isRelease]
  · rw [hden]; rfl
  · rw [hexh]
  · rw [hexh]; exact .tail _ (.tail _ (.tail _ (.head _)))
  · rw [hexh]
    simp [List.takeWhile_cons, isRelease]
  · rw [hexh]; rfl

/-- Witness for the amended C4 starting from the idle state. -/
theorem rollback_after_errcb_witness :
    ((startSession idleState false fun _ => .error 7).1 = idleState
      ∧ Ev.errCb ∈ (startSession idleState false fun _ => .error 7).2
      ∧ (((startSession idleState false fun _ => .error 7).2.takeWhile
          fun ev => decide (ev ≠ Ev.errCb)).all fun ev => !(isRelease ev)) = true
      ∧ (startSession (startSession idleState false fun _ => .error 7).1 true
          fun _ => .ok ()).1.isConnected = true)
    ∧ ((startSession idleState true fun _ => .error 0).1 = idleState
      ∧ Ev.errCb ∈ (startSession idleState true fun _ => .error 0).2
      ∧ (((startSession idleState true fun _ => .error 0).2.takeWhile
          fun ev => decide (ev ≠ Ev.errCb)).all fun ev => !(isRelease ev)) = true
      ∧ (startSession (startSession idleState true fun _ => .error 0).1 true
          fun _ => .ok ()).1.isConnected = true) :=
  rollback_after_errcb idleState (fun _ => .error 7) rfl

theorem le_natMax_of_mem {a : ℕ} {l : List ℕ} (h : a ∈ l) : a ≤ natMax l := by
  induction l with
  | nil => cases h
  | cons b t ih =>
    simp only [natMax, List.foldr_cons]
    rcases List.mem_cons.mp h with rfl | h'
    · exact le_max_left _ _
    · exact le_trans (ih h') (le_max_right _ _)

theorem natMax_le {l : List ℕ} {c : ℕ} (h : ∀ x ∈ l, x ≤ c) : natMax l ≤ c := by
  induction l with
  | nil => simp [natMax]
  | cons b t ih =>
    simp only [natMax, List.foldr_cons]
    exact max_le (h b (by simp)) (ih fun x hx => h x (List.mem_cons_of_mem _ hx))

/-- Counterexample to claim C6 as stated: with chunks arriving at
0, 300, 600, 900 ms — every consecutive gap under 500ms — the decay timer
scheduled by the chunk at 0 still fires at 500ms (no timer is ever cleared,
line 90), so the activity state is `true` at 499ms yet transitions to
`false` at 500ms even though chunks keep arriving less than 500ms apart. -/
theorem activity_decay_reset_cex :
    List.Chain' (fun a b => b < a + 500) [0, 300, 600, 900]
    ∧ activityAt [0, 300, 600, 900] 499 = true
    ∧ activityAt [0, 300, 600, 900] 500 = false := by
  exact ⟨by norm_num [List.chain'_cons], by decide, by decide⟩

/-- Claim C6 as amended: the activity callback is invoked with `true` when a
chunk is handled (the state reads `true` at every arrival time), and every
chunk schedules its own, never-cancelled `onActivity(false)` timeout 500ms
later, so 500ms after any chunk whose moment `a + 500` no other chunk hits
exactly, the state reads `false` — even while later chunks keep arriving
less than 500ms apart. -/
theorem activity_decay_per_chunk (arrivals : List ℕ) (a : ℕ) (ha : a ∈ arrivals) :
    activityAt arrivals a = true
    ∧ ((∀ b ∈ arrivals, b ≠ a + 500) → activityAt arrivals (a + 500) = false) := by
  constructor
  · have hmem : a ∈ arrivalsUpTo arrivals a := by
      simp [arrivalsUpTo, List.mem_filter, ha]
    have h1 : arrivalsUpTo arrivals a ≠ [] := by
      intro he
      rw [he] at hmem
      cases hmem
    have h2 : natMax (decaysUpTo arrivals a) ≤ natMax (arrivalsUpTo arrivals a) := by
      refine le_trans (natMax_le ?_) (le_natMax_of_mem hmem)
      intro x hx
      have := (List.mem_filter.mp hx).2
      simpa using this
    simp [activityAt, h1, h2]
  · intro hb
    have hf : a + 500 ∈ decaysUpTo arrivals (a + 500) := by
      simp only [decaysUpTo, List.mem_filter, List.mem_map]
      exact ⟨⟨a, ha, rfl⟩, by simp⟩
    have hTrue : natMax (arrivalsUpTo arrivals (a + 500)) ≤ a + 499 := by
      refine natMax_le ?_
      intro x hx
      have h1 := (List.mem_filter.mp hx).1
      have h2 := (List.mem_filter.mp hx).2
      have h3 : x ≤ a + 500 := by simpa using h2
      have h4 := hb x h1
      omega
    have hF := le_natMax_of_mem hf
    have hlt : ¬ (natMax (decaysUpTo arrivals (a + 500))
        ≤ natMax (arrivalsUpTo arrivals (a + 500))) := by omega
    simp [activityAt, hlt]

/-- Witness for the amended C6 at the arrival times 0, 300, 600, 900 ms. -/
theorem activity_decay_per_chunk_witness :
    activityAt [0, 300, 600, 900] 0 = true
    ∧ ((∀ b ∈ [0, 300, 600, 900], b ≠ 0 + 500) →
        activityAt [0, 300, 600, 900] (0 + 500) = false) :=
  activity_decay_per_chunk [0, 300, 600, 900] 0 (by decide)

theorem schedStart_eq_max (now next : ℚ) : schedStart now next = max now next := by
  unfold schedStart
  rcases lt_or_le next now with hlt | hle
  · rw [if_pos hlt, max_eq_left hlt.le]
  · rw [if_neg (not_lt.mpr hle), max_eq_right hle]

theorem scheduleChunks_length (l : List (ℚ × ℕ)) :
    ∀ next : ℚ, (scheduleChunks l next).length = l.length := by
  induction l with
  | nil => intro next; rfl
  | cons c rest ih =>
    intro next
    obtain ⟨now, len⟩ := c
    simp [scheduleChunks, ih]

theorem scheduleChunks_getD_succ (l : List (ℚ × ℕ)) :
    ∀ (next : ℚ) (i : ℕ), i + 1 < l.length →
      (scheduleChunks l next).getD (i + 1) 0
        = schedStart (l.getD (i + 1) (0, 0)).1
            ((scheduleChunks l next).getD i 0 + ((l.getD i (0, 0)).2 : ℚ) / 24000) := by
  induction l with
  | nil => intro next i h; simp at h
  | cons c rest ih =>
    intro next i h
    obtain ⟨now, len⟩ := c
    cases i with
    | zero =>
      match rest, h with
      | (now2, len2) :: t, _ =>
        simp [scheduleChunks, List.getD_cons_succ, List.getD_cons_zero]
    | succ j =>
      have h' : j + 1 < rest.length := by
        simp only [List.length_cons] at h
        omega
      simp only [scheduleChunks, List.getD_cons_succ]
      exact ih _ j h'

theorem scheduleChunks_mono (l : List (ℚ × ℕ)) (i j : ℕ) (hij : i ≤ j) :
    j < l.length →
      (scheduleChunks l 0).getD i 0 ≤ (scheduleChunks l 0).getD j 0 := by
  induction j, hij using Nat.le_induction with
  | base => intro _; exact le_refl _
  | succ j hij ih =>
    intro hj1
    have hj : j < l.length := by omega
    have step := scheduleChunks_getD_succ l 0 j hj1
    have hdur : (0 : ℚ) ≤ ((l.getD j (0, 0)).2 : ℚ) / 24000 := by positivity
    have hle : (scheduleChunks l 0).getD j 0 ≤ (scheduleChunks l 0).getD (j + 1) 0 := by
      rw [step, schedStart_eq_max]
      refine le_trans ?_ (le_max_right _ _)
      linarith
    exact le_trans (ih hj) hle

/-- Claim C1: folding the `playAudioChunk` scheduling step (lines 176-181)
from the initial cursor 0 over any chunk sequence, each chunk's scheduled
start equals `max(current device time at enqueue, nextStartTime)` where the
cursor after a chunk is its start plus `length / 24000`; consequently the
starts are non-decreasing and each later chunk starts no earlier than any
earlier chunk's start plus that chunk's duration, so no two chunks
overlap. -/
theorem schedule_starts_spec (chunks : List (ℚ × ℕ)) :
    (scheduleChunks chunks 0).length = chunks.length
    ∧ (0 < chunks.length →
        (scheduleChunks chunks 0).getD 0 0 = max (chunks.getD 0 (0, 0)).1 0)
    ∧ (∀ i, i + 1 < chunks.length →
        (scheduleChunks chunks 0).getD (i + 1) 0
          = max (chunks.getD (i + 1) (0, 0)).1
              ((scheduleChunks chunks 0).getD i 0 + ((chunks.getD i (0, 0)).2 : ℚ) / 24000))
    ∧ (∀ i j, i ≤ j → j < chunks.length →
        (scheduleChunks chunks 0).getD i 0 ≤ (scheduleChunks chunks 0).getD j 0)
    ∧ (∀ i j, i < j → j < chunks.length →
        (scheduleChunks chunks 0).getD i 0 + ((chunks.getD i (0, 0)).2 : ℚ) / 24000
          ≤ (scheduleChunks chunks 0).getD j 0) := by
  refine ⟨scheduleChunks_length chunks 0, ?_, ?_, ?_, ?_⟩
  · intro h0
    match chunks, h0 with
    | (now, len) :: rest, _ =>
      simp [scheduleChunks, List.getD_cons_zero, schedStart_eq_max]
  · intro i h
    rw [scheduleChunks_getD_succ chunks 0 i h, schedStart_eq_max]
  · intro i j hij hj
    exact scheduleChunks_mono chunks i j hij hj
  · intro i j hij hj
    have h1 : i + 1 < chunks.length := by omega
    have step := scheduleChunks_getD_succ chunks 0 i h1
    have hadj : (scheduleChunks chunks 0).getD i 0 + ((chunks.getD i (0, 0)).2 : ℚ) / 24000
        ≤ (scheduleChunks chunks 0).getD (i + 1) 0 := by
      rw [step, schedStart_eq_max]
      exact le_max_right _ _
    exact le_trans hadj (scheduleChunks_mono chunks (i + 1) j hij hj)



theorem b64Val_b64Char : ∀ n : ℕ, n < 64 → b64Val (b64Char n) = n := by decide

theorem b64Char_ne_pad : ∀ n : ℕ, n < 64 → b64Char n ≠ '=' := by decide

theorem atob_pad2 (x y : Char) :
    atobChars [x, y, '=', '='] = [b64Val x * 4 + b64Val y / 16] := by
  simp [atobChars]

theorem atob_pad1 (x y z : Char) (hz : z ≠ '=') :
    atobChars [x, y, z, '=']
      = [b64Val x * 4 + b64Val y / 16, b64Val y % 16 * 16 + b64Val z / 4] := by
  simp [atobChars, hz]

theorem atob_quad (x y z w : Char) (rest : List Char) (hz : z ≠ '=') (hw : w ≠ '=') :
    atobChars (x :: y :: z :: w :: rest)
      = (b64Val x * 4 + b64Val y / 16) :: (b64Val y % 16 * 16 + b64Val z / 4)
        :: (b64Val z % 4 * 64 + b64Val w) :: atobChars rest := by
  simp [atobChars, hz, hw]

theorem atob_btoa : ∀ l : List ℕ, (∀ b ∈ l, b < 256) → atobChars (btoaBytes l) = l := by
  intro l
  induction l using btoaBytes.induct with
  | case1 => intro _; rfl
  | case2 a =>
    intro h
    have ha : a < 256 := h a (by simp)
    simp only [btoaBytes]
    rw [atob_pad2, b64Val_b64Char _ (by omega), b64Val_b64Char _ (by omega)]
    simp only [List.cons.injEq, and_true]
    omega
  | case3 a b =>
    intro h
    have ha : a < 256 := h a (by simp)
    have hb : b < 256 := h b (by simp)
    simp only [btoaBytes]
    rw [atob_pad1 _ _ _ (b64Char_ne_pad _ (by omega)),
      b64Val_b64Char _ (by omega), b64Val_b64Char _ (by omega),
      b64Val_b64Char _ (by omega)]
    simp only [List.cons.injEq, and_true]
    exact ⟨by omega, by omega⟩
  | case4 a b c rest ih =>
    intro h
    have ha : a < 256 := h a (by simp)
    have hb : b < 256 := h b (by simp)
    have hc : c < 256 := h c (by simp)
    simp only [btoaBytes]
    rw [atob_quad _ _ _ _ _ (b64Char_ne_pad _ (by omega)) (b64Char_ne_pad _ (by omega)),
      b64Val_b64Char _ (by omega), b64Val_b64Char _ (by omega),
      b64Val_b64Char _ (by omega), b64Val_b64Char _ (by omega),
      ih (fun x hx => h x (by simp [hx]))]
    simp only [List.cons.injEq, and_true]
    exact ⟨by omega, by omega, by omega⟩

theorem clamp1_eq (x : ℚ) (h1 : -1 ≤ x) (h2 : x ≤ 1) : clamp1 x = x := by
  unfold clamp1
  rw [min_eq_right h2, max_eq_right h1]

theorem quantSample_range (x : ℚ) : -32768 ≤ quantSample x ∧ quantSample x ≤ 32767 := by
  have hc1 : (-1 : ℚ) ≤ clamp1 x := le_max_left _ _
  have hc2 : clamp1 x ≤ 1 := max_le (by norm_num) (min_le_left _ _)
  unfold quantSample jsTrunc
  split_ifs with h1 h2 h3
  · constructor
    · have hy : (-32768 : ℚ) ≤ clamp1 x * 32768 := by nlinarith
      have hcc := Int.le_ceil (clamp1 x * 32768)
      have : (-32768 : ℚ) ≤ (⌈clamp1 x * 32768⌉ : ℚ) := le_trans hy hcc
      exact_mod_cast this
    · have hy : clamp1 x * 32768 ≤ 0 := by nlinarith
      have h0 : ⌈clamp1 x * 32768⌉ ≤ 0 := Int.ceil_le.mpr (by exact_mod_cast hy)
      omega
  · exact absurd (by nlinarith : clamp1 x * 32768 < 0) h2
  · exact absurd h3 (not_lt.mpr (by nlinarith))
  · constructor
    · have h0 : (0 : ℤ) ≤ ⌊clamp1 x * 32767⌋ := Int.le_floor.mpr (by push_cast; nlinarith)
      omega
    · have hy : clamp1 x * 32767 ≤ 32767 := by nlinarith
      have hff := Int.floor_le (clamp1 x * 32767)
      have h5 : (⌊clamp1 x * 32767⌋ : ℚ) ≤ 32767 := le_trans hff hy
      exact_mod_cast h5

theorem toInt16_id (z : ℤ) (h1 : -32768 ≤ z) (h2 : z ≤ 32767) : toInt16 z = z := by
  unfold toInt16
  omega

theorem lowByte_lt (v : ℤ) : lowByte v < 256 := by
  unfold lowByte
  omega

theorem highByte_lt (v : ℤ) : highByte v < 256 := by
  unfold highByte
  have hm1 : 0 ≤ v % 65536 := Int.emod_nonneg v (by norm_num)
  have hm2 : v % 65536 < 65536 := Int.emod_lt_of_pos v (by norm_num)
  omega

theorem int16OfBytes_roundtrip (v : ℤ) (h1 : -32768 ≤ v) (h2 : v ≤ 32767) :
    int16OfBytes (lowByte v) (highByte v) = v := by
  unfold int16OfBytes lowByte highByte
  have hm1 : 0 ≤ v % 65536 := Int.emod_nonneg v (by norm_num)
  have hm2 : v % 65536 < 65536 := Int.emod_lt_of_pos v (by norm_num)
  split_ifs with h <;> omega

theorem quant_err (x : ℚ) (h1 : -1 ≤ x) (h2 : x ≤ 1) :
    |x - (quantSample x : ℚ) / 32768| < 1 / 16384
    ∧ (x < 0 → |x - (quantSample x : ℚ) / 32768| ≤ 1 / 32768) := by
  have hcl := clamp1_eq x h1 h2
  unfold quantSample jsTrunc
  rw [hcl]
  split_ifs with hx hy hy
  · have c1 : x * 32768 ≤ (⌈x * 32768⌉ : ℚ) := Int.le_ceil _
    have c2 : (⌈x * 32768⌉ : ℚ) < x * 32768 + 1 := Int.ceil_lt_add_one _
    have habs : |x - (⌈x * 32768⌉ : ℚ) / 32768| ≤ 1 / 32768 := by
      rw [abs_le]
      constructor <;> linarith
    refine ⟨lt_of_le_of_lt habs (by norm_num), fun _ => habs⟩
  · exact absurd (by nlinarith : x * 32768 < 0) hy
  · exact absurd hy (not_lt.mpr (by nlinarith))
  · have c1 : (⌊x * 32767⌋ : ℚ) ≤ x * 32767 := Int.floor_le _
    have c2 : x * 32767 < (⌊x * 32767⌋ : ℚ) + 1 := Int.lt_floor_add_one _
    have hx0 : (0 : ℚ) ≤ x := not_lt.mp hx
    have hnn : (0 : ℚ) ≤ x - (⌊x * 32767⌋ : ℚ) / 32768 := by linarith
    have habs : |x - (⌊x * 32767⌋ : ℚ) / 32768| < 1 / 16384 := by
      rw [abs_of_nonneg hnn]
      linarith
    exact ⟨habs, fun hneg => absurd hneg hx⟩

theorem pairUp_parity : ∀ bytes : List ℕ,
    (bytes.length % 2 = 1 → pairUp bytes = none)
    ∧ (bytes.length % 2 = 0 → ∃ ps, pairUp bytes = some ps ∧ ps.length = bytes.length / 2) := by
  intro bytes
  induction bytes using pairUp.induct with
  | case1 => simp [pairUp]
  | case2 lo hi rest ih =>
    constructor
    · intro h
      have h' : rest.length % 2 = 1 := by
        simp only [List.length_cons] at h
        omega
      simp [pairUp, ih.1 h']
    · intro h
      have h' : rest.length % 2 = 0 := by
        simp only [List.length_cons] at h
        omega
      obtain ⟨ps, hps, hlen⟩ := ih.2 h'
      refine ⟨(lo, hi) :: ps, by simp [pairUp, hps], ?_⟩
      simp only [List.length_cons, hlen]
      omega
  | case3 x => simp [pairUp]

theorem pairUp_pcmBytes (s : List ℚ) :
    pairUp (pcmBytes s) = some (s.map fun x =>
      (lowByte (toInt16 (quantSample x)), highByte (toInt16 (quantSample x)))) := by
  induction s with
  | nil => rfl
  | cons x t ih =>
    have hstep : pcmBytes (x :: t)
        = lowByte (toInt16 (quantSample x)) :: highByte (toInt16 (quantSample x))
          :: pcmBytes t := rfl
    rw [hstep]
    simp [pairUp, ih]

theorem pcmBytes_lt (s : List ℚ) : ∀ b ∈ pcmBytes s, b < 256 := by
  intro b hb
  simp only [pcmBytes, List.mem_flatten, List.mem_map] at hb
  obtain ⟨l, ⟨x, hx, rfl⟩, hbl⟩ := hb
  simp only [List.mem_cons, List.not_mem_nil, or_false] at hbl
  rcases hbl with rfl | rfl
  · exact lowByte_lt _
  · exact highByte_lt _

theorem decode_quant (x : ℚ) :
    ((int16OfBytes (lowByte (toInt16 (quantSample x)))
        (highByte (toInt16 (quantSample x))) : ℤ) : ℚ)
      = ((quantSample x : ℤ) : ℚ) := by
  obtain ⟨hr1, hr2⟩ := quantSample_range x
  rw [toInt16_id _ hr1 hr2, int16OfBytes_roundtrip _ hr1 hr2]

theorem b64_decode_encode (s : List ℚ) :
    b64ToPcm (pcmToB64 s) = .ok (s.map fun x => ((quantSample x : ℤ) : ℚ) / 32768) := by
  unfold b64ToPcm pcmToB64
  rw [atob_btoa _ (pcmBytes_lt s)]
  simp only [pcmOfBytes, pairUp_pcmBytes, List.map_map, Function.comp]
  simp [decode_quant]

/-- Claim C2 as amended: decoding the encoding of any sample sequence with
values in `[-1, 1]` yields a sequence of the same length in which every
sample differs from the original by less than `1/16384` (two quantization
steps; the bound `1/32768` of the claim holds for the negative samples,
which are scaled by 32768, but not for the non-negative ones, which are
scaled by 32767 yet decoded by dividing by 32768). -/
theorem codec_roundtrip_within_two_ulp (s : List ℚ) (hs : ∀ x ∈ s, -1 ≤ x ∧ x ≤ 1) :
    ∃ l : List ℚ, b64ToPcm (pcmToB64 s) = .ok l ∧ l.length = s.length
      ∧ ∀ i, i < s.length →
          |s.getD i 0 - l.getD i 0| < 1 / 16384
          ∧ (s.getD i 0 < 0 → |s.getD i 0 - l.getD i 0| ≤ 1 / 32768) := by
  refine ⟨s.map fun x => ((quantSample x : ℤ) : ℚ) / 32768, b64_decode_encode s, by simp, ?_⟩
  · intro i hi
    have h2 : i < (s.map fun x => ((quantSample x : ℤ) : ℚ) / 32768).length := by
      simpa using hi
    rw [List.getD_eq_getElem _ _ h2, List.getD_eq_getElem _ _ hi, List.getElem_map]
    have hmem : s[i] ∈ s := List.getElem_mem _
    obtain ⟨hb1, hb2⟩ := hs _ hmem
    exact quant_err _ hb1 hb2

/-- Counterexample to claim C2 as stated: for the single sample
`65535/65536` (a float32-representable value in `[-1, 1]`) the round trip
returns `16383/16384`, an absolute error of `3/65536`, strictly greater
than the claimed bound `1/32768 = 2/65536`. -/
theorem codec_roundtrip_err_bound_cex :
    b64ToPcm (pcmToB64 [(65535 : ℚ) / 65536]) = .ok [(16383 : ℚ) / 16384]
    ∧ 1 / 32768 < |(65535 : ℚ) / 65536 - (16383 : ℚ) / 16384| := by
  have hq : quantSample ((65535 : ℚ) / 65536) = 32766 := by
    unfold quantSample clamp1 jsTrunc
    rw [min_eq_right (by norm_num), max_eq_right (by norm_num),
      if_neg (by norm_num), if_neg (by norm_num), Int.floor_eq_iff]
    norm_num
  constructor
  · rw [b64_decode_encode]
    simp only [List.map_cons, List.map_nil, hq]
    norm_num
  · rw [show (65535 : ℚ) / 65536 - (16383 : ℚ) / 16384 = 3 / 65536 by norm_num,
      abs_of_nonneg (by norm_num : (0 : ℚ) ≤ 3 / 65536)]
    norm_num

/-- Witness for the amended C2 at a concrete two-sample sequence. -/
theorem codec_roundtrip_within_two_ulp_witness :
    ∃ l : List ℚ, b64ToPcm (pcmToB64 [(1 : ℚ) / 2, -(1 : ℚ) / 3]) = .ok l
      ∧ l.length = ([(1 : ℚ) / 2, -(1 : ℚ) / 3] : List ℚ).length
      ∧ ∀ i, i < ([(1 : ℚ) / 2, -(1 : ℚ) / 3] : List ℚ).length →
          |([(1 : ℚ) / 2, -(1 : ℚ) / 3] : List ℚ).getD i 0 - l.getD i 0| < 1 / 16384
          ∧ (([(1 : ℚ) / 2, -(1 : ℚ) / 3] : List ℚ).getD i 0 < 0 →
              |([(1 : ℚ) / 2, -(1 : ℚ) / 3] : List ℚ).getD i 0 - l.getD i 0| ≤ 1 / 32768) :=
  codec_roundtrip_within_two_ulp [(1 : ℚ) / 2, -(1 : ℚ) / 3] (by
    intro x hx
    simp only [List.mem_cons, List.not_mem_nil, or_false] at hx
    rcases hx with rfl | rfl <;> norm_num)

/-- Claim C7 as amended: a frame whose byte payload has odd length makes
the decoder fail (the `Int16Array` view construction throws, line 240);
the failure escapes `playAudioChunk` before any state is mutated — it is
not caught or logged by the handler — so nothing is scheduled from that
frame and the session state is untouched; for every even byte length the
decoder is total and the chunk is scheduled normally. -/
theorem odd_frame_uncaught_even_total (st : SvcState) (now : ℚ) (bytes : List ℕ)
    (hctx : st.outputContext = true) :
    (bytes.length % 2 = 1 → playAudioChunkBytes st now bytes = (st, none, some ()))
    ∧ (bytes.length % 2 = 0 → ∃ samples,
        pcmOfBytes bytes = .ok samples
        ∧ samples.length = bytes.length / 2
        ∧ playAudioChunkBytes st now bytes
            = ({ st with nextStartTime := schedStart now st.nextStartTime
                  + (samples.length : ℚ) / 24000 },
               some (schedStart now st.nextStartTime), none)) := by
  constructor
  · intro h
    have hp := (pairUp_parity bytes).1 h
    simp [playAudioChunkBytes, hctx, pcmOfBytes, hp]
  · intro h
    obtain ⟨ps, hps, hlen⟩ := (pairUp_parity bytes).2 h
    refine ⟨ps.map fun p => ((int16OfBytes p.1 p.2 : ℤ) : ℚ) / 32768, ?_, by simp [hlen], ?_⟩
    · simp [pcmOfBytes, hps]
    · simp [playAudioChunkBytes, hctx, pcmOfBytes, hps]

/-- Counterexample to claim C7 as stated: handling a one-byte (odd-length)
frame in a fully active state does not complete as a logged, locally
handled drop — the decode failure propagates out of the playback path as an
escaped exception (`some ()` in the third component), there being no
try/catch or log around `b64ToPcm` in the message handler (lines 83-92). -/
theorem odd_frame_logged_cex :
    playAudioChunkBytes ⟨true, true, true, true, true, 0, true⟩ 0 [37]
      = (⟨true, true, true, true, true, 0, true⟩, none, some ())
    ∧ pcmOfBytes [37] = .error () := by
  exact ⟨rfl, rfl⟩

/-- Witness for the amended C7: an even two-byte frame decodes and is
scheduled from an active state. -/
theorem odd_frame_uncaught_even_total_witness :
    ∃ samples : List ℚ, pcmOfBytes [1, 2] = .ok samples
      ∧ samples.length = ([1, 2] : List ℕ).length / 2
      ∧ playAudioChunkBytes ⟨true, true, true, true, true, 0, true⟩ 0 [1, 2]
          = (⟨true, true, true, true, true,
                schedStart 0 0 + (samples.length : ℚ) / 24000, true⟩,
             some (schedStart 0 0), none) :=
  (odd_frame_uncaught_even_total ⟨true, true, true, true, true, 0, true⟩ 0 [1, 2] rfl).2 rfl

end LiveSession
